import Mathlib

/-!
Verification development for the logpipe log-processing tool.

The Go sources are shallowly embedded: Go strings become lists of
characters (`GoStr`), the dynamically typed log-entry value
(`map[string]any` holding JSON-decoded data) becomes the `GoVal` family,
and a log entry (`parser.LogEntry`) becomes an association list
(`Entry`).  Functions that in Go receive a mutable map are embedded in a
state-passing style: they return the map they leave behind alongside
their result, so that non-mutation is a provable statement rather than a
typing accident.  Machine floating point (`float64`) is modelled by the
exact rational type `GoFloat`; the modelled behaviour is exact for the
integral and short-decimal values that appear in timestamps and in the
statements below.  `time.Time` instants are modelled as proleptic-Gregorian seconds
since the Unix epoch (`Int`); sub-second resolution, which none of the
verified properties depend on, is elided.
-/

/-- Go string, modelled as its sequence of characters.  Go indexes and
slices strings by byte; for the ASCII data handled here the two views
coincide, and UTF-8 byte order agrees with code-point order, so
lexicographic comparisons also coincide. -/
abbrev GoStr := List Char

/-- Coerce a Lean string literal into the `GoStr` model. -/
def gs (s : String) : GoStr := s.data

/-- Space predicate of Go's strings.TrimSpace (unicode.IsSpace), restricted
to the code points that can actually occur in the embedded byte data. -/
def goIsSpace (c : Char) : Bool :=
  c = ' ' || c = '\t' || c = '\n' || c = '\x0b' || c = '\x0c' || c = '\r' ||
  c = '\x85' || c = '\xa0'

/-- Model of strings.TrimSpace: drop leading and trailing white space. -/
def trimSpace (s : GoStr) : GoStr :=
  ((s.dropWhile goIsSpace).reverse.dropWhile goIsSpace).reverse

/-- Model of strings.IndexByte: index of the first occurrence of `c`. -/
def indexByte : GoStr → Char → Option Nat
  | [], _ => none
  | x :: rest, c =>
    if x = c then some 0
    else match indexByte rest c with
      | some i => some (i + 1)
      | none => none

/-- Model of strings.HasPrefix. -/
def startsWithStr (s pre : GoStr) : Bool := pre.isPrefixOf s

/-- Model of strings.Index: index of the first occurrence of the
substring `sub` in `s`. -/
def indexSub : GoStr → GoStr → Option Nat
  | s, sub =>
    if sub.isPrefixOf s then some 0
    else match s with
      | [] => none
      | _ :: rest =>
        match indexSub rest sub with
        | some i => some (i + 1)
        | none => none

/-- Byte-wise (here: character-wise) strict ordering of Go strings. -/
def goStrLt : GoStr → GoStr → Bool
  | [], [] => false
  | [], _ :: _ => true
  | _ :: _, [] => false
  | a :: as_, b :: bs => if a = b then goStrLt as_ bs else a < b

/-- Non-strict counterpart of `goStrLt`. -/
def goStrLe (a b : GoStr) : Bool := !goStrLt b a

/-- Exact rational model of a float64 value: numerator over a positive
power-of-ten-shaped denominator, kept unnormalised so that every
operation is structurally computable.  Binary floating-point rounding
of non-representable decimals is elided; the values exercised by the
statements below are exactly representable. -/
structure GoFloat where
  num : Int
  den : Nat
deriving DecidableEq, Repr

/-- Comparison n < f by cross multiplication (denominators are positive
by construction). -/
def GoFloat.gtInt (f : GoFloat) (n : Int) : Bool := n * (f.den : Int) < f.num

/-- Comparison f < g by cross multiplication. -/
def GoFloat.ltF (f g : GoFloat) : Bool := f.num * (g.den : Int) < g.num * (f.den : Int)

/-- Truncation toward minus infinity (used where the Go code converts a
positive float to int64, where it agrees with truncation toward zero). -/
def GoFloat.floorI (f : GoFloat) : Int := Int.fdiv f.num f.den

mutual
/-- Dynamically typed value stored in a log entry, mirroring the values
Go's encoding/json places into a `map[string]any`: strings, `float64`
numbers (modelled by `GoFloat`), booleans, JSON null, and nested objects
and arrays preserved structurally. -/
inductive GoVal where
  | str (s : GoStr)
  | num (q : GoFloat)
  | bool (b : Bool)
  | null
  | obj (fields : GoFields)
  | arr (elems : GoElems)
deriving DecidableEq, Repr

/-- Field list of a nested JSON object, in source order. -/
inductive GoFields where
  | nil
  | cons (k : GoStr) (v : GoVal) (rest : GoFields)
deriving DecidableEq, Repr

/-- Element list of a nested JSON array, in source order. -/
inductive GoElems where
  | nil
  | cons (v : GoVal) (rest : GoElems)
deriving DecidableEq, Repr
end

/-- Log entry (`parser.LogEntry`, a `map[string]any`), modelled as an
association list with unique keys maintained by `insertE`. -/
abbrev Entry := List (GoStr × GoVal)

/-- Map read `entry[k]`. -/
def lookupE : Entry → GoStr → Option GoVal
  | [], _ => none
  | (k, v) :: rest, key => if k = key then some v else lookupE rest key

/-- Map write `entry[k] = v`: replace the binding in place when the key
exists, otherwise add it. -/
def insertE : Entry → GoStr → GoVal → Entry
  | [], key, v => [(key, v)]
  | (k, w) :: rest, key, v =>
    if k = key then (k, v) :: rest else (k, w) :: insertE rest key v

/-- Stable insertion step for `sortS`: `x` moves past strictly smaller
elements only, so equal elements keep their original relative order. -/
def insertS (lt : α → α → Bool) (x : α) : List α → List α
  | [] => [x]
  | y :: ys => if lt y x then y :: insertS lt x ys else x :: y :: ys

/-- Stable sort by the strict comparison `lt`, modelling sort.SliceStable
(and sort.Slice / sort.Strings at call sites where the comparison is a
strict total order, which determines the result uniquely). -/
def sortS (lt : α → α → Bool) : List α → List α
  | [] => []
  | x :: xs => insertS lt x (sortS lt xs)

/-- Model of sort.Strings. -/
def sortStrings (l : List GoStr) : List GoStr := sortS goStrLt l

/-- Decimal digit string of a natural number. -/
def natDigits (n : Nat) : GoStr := (Nat.repr n).data

/-- Smallest exponent k with den dividing 10 ^ k, searched over the
range a float64 can require. -/
def fracExp (den : Nat) : Option Nat :=
  (List.range 340).find? (fun k => 10 ^ k % den = 0)

/-- Model of fmt's %v rendering of a float64 (strconv 'g', shortest
form): integral values print as plain integers, finite decimals print
with their fractional digits stripped of trailing zeros.  Values
outside those shapes cannot arise from the exact decimal literals
handled in this development. -/
def goFormatFloat (q : GoFloat) : GoStr :=
  let sign : GoStr := if q.num < 0 then gs "-" else gs ""
  let n : Nat := q.num.natAbs
  match fracExp q.den with
  | some k =>
    let scaled := n * 10 ^ k / q.den
    let ip := scaled / 10 ^ k
    let fracRaw := natDigits (scaled % 10 ^ k)
    let frac := ((List.replicate (k - fracRaw.length) '0' ++ fracRaw).reverse.dropWhile (· = '0')).reverse
    sign ++ natDigits ip ++ (if frac = [] then [] else gs "." ++ frac)
  | none => sign ++ natDigits n ++ gs "/" ++ natDigits q.den

mutual
/-- Model of fmt.Sprintf("%v", value) on the values a LogEntry can hold:
strings print verbatim, booleans as true/false, a nil interface as
<nil>, maps in sorted-key map[k:v ...] form, slices in [v ...] form. -/
def sprintfV : GoVal → GoStr
  | .str s => s
  | .num q => goFormatFloat q
  | .bool b => if b then gs "true" else gs "false"
  | .null => gs "<nil>"
  | .obj fs =>
    let rendered := sortS (fun a b => goStrLt a.1 b.1) (sprintfFields fs)
    gs "map[" ++ List.intercalate (gs " ") (rendered.map (fun p => p.1 ++ gs ":" ++ p.2)) ++ gs "]"
  | .arr es => gs "[" ++ List.intercalate (gs " ") (sprintfElems es) ++ gs "]"

/-- Rendered key/value pairs of a nested object. -/
def sprintfFields : GoFields → List (GoStr × GoStr)
  | .nil => []
  | .cons k v rest => (k, sprintfV v) :: sprintfFields rest

/-- Rendered elements of a nested array. -/
def sprintfElems : GoElems → List GoStr
  | .nil => []
  | .cons v rest => sprintfV v :: sprintfElems rest
end

theorem dropWhile_length_le (p : α → Bool) (l : List α) :
    (List.dropWhile p l).length ≤ l.length := by
  induction l with
  | nil => simp [List.dropWhile]
  | cons a rest ih =>
    by_cases h : p a
    · simp [List.dropWhile, h]; omega
    · simp [List.dropWhile, h]

theorem trimSpace_length_le (s : GoStr) : (trimSpace s).length ≤ s.length := by
  have h1 := dropWhile_length_le goIsSpace s
  have h2 := dropWhile_length_le goIsSpace (s.dropWhile goIsSpace).reverse
  simp only [trimSpace, List.length_reverse] at *
  omega

theorem trimSpace_nil : trimSpace [] = [] := rfl

/-- Closing-quote scan of parseLogfmt: starting from index 1 of a
string whose index 0 is the opening quote, find the first double quote
whose immediately preceding character is not a backslash. -/
def findCloseQuoteAux (s : GoStr) : Nat → Nat → Option Nat
  | 0, _ => none
  | fuel + 1, endIdx =>
    if endIdx < s.length then
      if s.getD endIdx ' ' = '"' ∧ s.getD (endIdx - 1) ' ' ≠ '\\' then some endIdx
      else findCloseQuoteAux s fuel (endIdx + 1)
    else none

/-- Scan for the closing unescaped quote, as in parseLogfmt (the fuel
bound covers the whole scan range). -/
def findCloseQuote (s : GoStr) : Option Nat := findCloseQuoteAux s (s.length + 1) 1

/-- Loop body of parseLogfmt: consume key=value pairs from the
remaining input, accumulating them into the entry. -/
def parseLogfmtAux : Nat → GoStr → Entry → Except GoStr Entry
  | 0, _, entry => .ok entry
  | fuel + 1, remaining, entry =>
    if trimSpace remaining = [] then .ok entry
    else
      match indexByte (trimSpace remaining) '=' with
      | none => .ok (insertE entry (trimSpace remaining) (.bool true))
      | some eqIdx =>
        let key := (trimSpace remaining).take eqIdx
        let rest := (trimSpace remaining).drop (eqIdx + 1)
        if startsWithStr rest (gs "\"") then
          match findCloseQuote rest with
          | none => .error (gs "unterminated string value")
          | some endIdx =>
            parseLogfmtAux fuel (rest.drop (endIdx + 1))
              (insertE entry key (.str ((rest.take endIdx).drop 1)))
        else
          match indexByte rest ' ' with
          | none => parseLogfmtAux fuel [] (insertE entry key (.str rest))
          | some spaceIdx =>
            parseLogfmtAux fuel (rest.drop (spaceIdx + 1))
              (insertE entry key (.str (rest.take spaceIdx)))

/-- Model of parseLogfmt on a single line.  The fuel bound line.length + 1
always suffices: every loop iteration consumes at least the key and its
equals sign, so the remaining input shrinks strictly. -/
def parseLogfmt (line : GoStr) : Except GoStr Entry :=
  parseLogfmtAux (line.length + 1) line []

/-- Line loop of LogfmtParser.Parse: 1-based line numbers, blank lines
skipped, parse failures reported with their line number and skipped. -/
def logfmtParseLines : List GoStr → Nat → List Entry × List (Nat × GoStr)
  | [], _ => ([], [])
  | l :: ls, lineNum =>
    let n := lineNum + 1
    let line := trimSpace l
    if line = [] then logfmtParseLines ls n
    else
      match parseLogfmt line with
      | .error m =>
        let out := logfmtParseLines ls n
        (out.1, (n, m) :: out.2)
      | .ok e =>
        let out := logfmtParseLines ls n
        (e :: out.1, out.2)

/-- White space accepted between JSON tokens by encoding/json. -/
def jsonIsWs (c : Char) : Bool := c = ' ' || c = '\t' || c = '\n' || c = '\r'

/-- Hexadecimal digit value, for \u escapes. -/
def hexVal (c : Char) : Option Nat :=
  if '0' ≤ c ∧ c ≤ '9' then some (c.toNat - '0'.toNat)
  else if 'a' ≤ c ∧ c ≤ 'f' then some (c.toNat - 'a'.toNat + 10)
  else if 'A' ≤ c ∧ c ≤ 'F' then some (c.toNat - 'A'.toNat + 10)
  else none

/-- Body of a JSON string after the opening quote: decode escapes, stop
at the closing quote, reject raw control characters and bad escapes.
Surrogate-pair recombination of consecutive \u escapes is elided. -/
def jsonStringBody : GoStr → Option (GoStr × GoStr)
  | [] => none
  | '"' :: rest => some ([], rest)
  | '\\' :: 'u' :: h1 :: h2 :: h3 :: h4 :: rest =>
    match hexVal h1, hexVal h2, hexVal h3, hexVal h4 with
    | some a, some b, some c, some d =>
      match jsonStringBody rest with
      | some (s, r) => some (Char.ofNat (((a * 16 + b) * 16 + c) * 16 + d) :: s, r)
      | none => none
    | _, _, _, _ => none
  | '\\' :: e :: rest =>
    match
      (if e = '"' then some '"'
       else if e = '\\' then some '\\'
       else if e = '/' then some '/'
       else if e = 'b' then some '\x08'
       else if e = 'f' then some '\x0c'
       else if e = 'n' then some '\n'
       else if e = 'r' then some '\r'
       else if e = 't' then some '\t'
       else none) with
    | some c =>
      match jsonStringBody rest with
      | some (s, r) => some (c :: s, r)
      | none => none
    | none => none
  | c :: rest =>
    if c.toNat < 32 then none
    else
      match jsonStringBody rest with
      | some (s, r) => some (c :: s, r)
      | none => none

/-- Digit string to natural number. -/
def digitsToNat (ds : GoStr) : Nat :=
  ds.foldl (fun acc c => acc * 10 + (c.toNat - '0'.toNat)) 0

/-- JSON number per the grammar encoding/json enforces, evaluated
exactly as a GoFloat. -/
def jsonNumber (s : GoStr) : Option (GoFloat × GoStr) :=
  let neg := startsWithStr s (gs "-")
  let s1 := if neg then s.drop 1 else s
  let ds := s1.takeWhile Char.isDigit
  if ds = [] then none
  else if 1 < ds.length ∧ ds.headD '0' = '0' then none
  else
    let s2 := s1.drop ds.length
    let fds := if startsWithStr s2 (gs ".") then (s2.drop 1).takeWhile Char.isDigit else []
    let s3 := if startsWithStr s2 (gs ".") then (s2.drop 1).drop fds.length else s2
    if startsWithStr s2 (gs ".") ∧ fds = [] then none
    else
      let hasExp := startsWithStr s3 (gs "e") ∨ startsWithStr s3 (gs "E")
      let s4 := if hasExp then s3.drop 1 else s3
      let expNeg := hasExp ∧ startsWithStr s4 (gs "-")
      let s5 := if hasExp ∧ (startsWithStr s4 (gs "-") ∨ startsWithStr s4 (gs "+")) then s4.drop 1 else s4
      let eds := if hasExp then s5.takeWhile Char.isDigit else []
      if hasExp ∧ eds = [] then none
      else
        let rest := if hasExp then s5.drop eds.length else s3
        let mantNum : Nat := digitsToNat ds * 10 ^ fds.length + digitsToNat fds
        let scaledNum : Nat := if expNeg then mantNum else mantNum * 10 ^ digitsToNat eds
        let scaledDen : Nat := if expNeg then 10 ^ fds.length * 10 ^ digitsToNat eds
          else 10 ^ fds.length
        some (⟨if neg then -(scaledNum : Int) else (scaledNum : Int), scaledDen⟩, rest)

mutual
/-- JSON value grammar as enforced by encoding/json, with a fuel bound
on nesting (callers supply input length + 1, which always suffices since
every recursive step consumes at least one character). -/
def jsonValue : Nat → GoStr → Option (GoVal × GoStr)
  | 0, _ => none
  | fuel + 1, s =>
    match s.dropWhile jsonIsWs with
    | '\x7b' :: rest =>
      (match rest.dropWhile jsonIsWs with
       | '\x7d' :: r => some (.obj .nil, r)
       | inner =>
         match jsonMembersCont fuel inner with
         | some (fs, r) => some (.obj fs, r)
         | none => none)
    | '[' :: rest =>
      (match rest.dropWhile jsonIsWs with
       | ']' :: r => some (.arr .nil, r)
       | inner =>
         match jsonElementsCont fuel inner with
         | some (es, r) => some (.arr es, r)
         | none => none)
    | '"' :: rest =>
      (match jsonStringBody rest with
       | some (str, r) => some (.str str, r)
       | none => none)
    | 't' :: 'r' :: 'u' :: 'e' :: rest => some (.bool true, rest)
    | 'f' :: 'a' :: 'l' :: 's' :: 'e' :: rest => some (.bool false, rest)
    | 'n' :: 'u' :: 'l' :: 'l' :: rest => some (.null, rest)
    | other =>
      match jsonNumber other with
      | some (q, r) => some (.num q, r)
      | none => none
termination_by structural fuel s => fuel

/-- One key:value member of a non-empty object followed by a comma
continuation or the closing brace. -/
def jsonMembersCont : Nat → GoStr → Option (GoFields × GoStr)
  | 0, _ => none
  | fuel + 1, s =>
    match s with
    | '"' :: rest =>
      (match jsonStringBody rest with
       | some (key, r1) =>
         (match r1.dropWhile jsonIsWs with
          | ':' :: r2 =>
            (match jsonValue fuel r2 with
             | some (v, r3) =>
               (match r3.dropWhile jsonIsWs with
                | ',' :: r4 =>
                  (match jsonMembersCont fuel (r4.dropWhile jsonIsWs) with
                   | some (fs, r5) => some (.cons key v fs, r5)
                   | none => none)
                | '\x7d' :: r4 => some (.cons key v .nil, r4)
                | _ => none)
             | none => none)
          | _ => none)
       | none => none)
    | _ => none
termination_by structural fuel s => fuel

/-- One element of a non-empty array followed by a comma continuation
or the closing bracket. -/
def jsonElementsCont : Nat → GoStr → Option (GoElems × GoStr)
  | 0, _ => none
  | fuel + 1, s =>
    match jsonValue fuel s with
    | some (v, r1) =>
      (match r1.dropWhile jsonIsWs with
       | ',' :: r2 =>
         (match jsonElementsCont fuel r2 with
          | some (es, r3) => some (.cons v es, r3)
          | none => none)
       | ']' :: r2 => some (.cons v .nil, r2)
       | _ => none)
    | none => none
termination_by structural fuel s => fuel
end

/-- Fold a decoded object's fields into a map the way encoding/json
fills a `map[string]any`: later duplicate keys overwrite earlier ones. -/
def goFieldsToEntry : GoFields → Entry → Entry
  | .nil, e => e
  | .cons k v rest, e => goFieldsToEntry rest (insertE e k v)

/-- Outcome of `json.Unmarshal(line, &entry)` for `entry : LogEntry`. -/
inductive UnmarshalOut where
  | err
  | nilMap
  | objMap (e : Entry)
deriving DecidableEq, Repr

/-- Model of json.Unmarshal into a `LogEntry` variable: a decoded
object fills the map (later duplicates win); the literal null leaves
the map nil WITHOUT error; any other top-level value, malformed input,
or trailing non-space data is an error. -/
def unmarshalEntry (s : GoStr) : UnmarshalOut :=
  match jsonValue (s.length + 1) s with
  | none => .err
  | some (v, rest) =>
    if rest.dropWhile jsonIsWs ≠ [] then .err
    else
      match v with
      | .null => .nilMap
      | .obj fs => .objMap (goFieldsToEntry fs [])
      | _ => .err

/-- Line loop of JSONParser.Parse: 1-based line numbers, blank lines
skipped, decode failures reported by line number and skipped; a
successful unmarshal (object, or the literal null leaving a nil map)
emits the entry. -/
def jsonParseLines : List GoStr → Nat → List Entry × List Nat
  | [], _ => ([], [])
  | l :: ls, lineNum =>
    let n := lineNum + 1
    let line := trimSpace l
    if line = [] then jsonParseLines ls n
    else
      match unmarshalEntry line with
      | .err =>
        let out := jsonParseLines ls n
        (out.1, n :: out.2)
      | .nilMap =>
        let out := jsonParseLines ls n
        ([] :: out.1, out.2)
      | .objMap e =>
        let out := jsonParseLines ls n
        (e :: out.1, out.2)

theorem indexByte_lt_length {s : GoStr} {c : Char} {i : Nat}
    (h : indexByte s c = some i) : i < s.length := by
  induction s generalizing i with
  | nil => simp [indexByte] at h
  | cons a rest ih =>
    simp only [indexByte] at h
    by_cases ha : a = c
    · rw [if_pos ha] at h
      cases h
      simp
    · rw [if_neg ha] at h
      cases hrec : indexByte rest c with
      | none => rw [hrec] at h; cases h
      | some j =>
        rw [hrec] at h
        cases h
        have := ih hrec
        simp only [List.length_cons]
        omega

/-- Model of sniffFormat: read lines until the first one that is
non-blank after trimming, classify by its first character, and return
the reconstructed byte stream handed to the parser.  A missing final
newline is the bufio EOF case. -/
def sniffFormatAux : Nat → GoStr → GoStr × GoStr
  | 0, _ => (gs "json", [])
  | fuel + 1, s =>
    match indexByte s '\n' with
    | some i =>
      if trimSpace (s.take (i + 1)) ≠ [] then
        if startsWithStr (trimSpace (s.take (i + 1))) (gs "\x7b") then
          (gs "json", s.take (i + 1) ++ s.drop (i + 1))
        else (gs "logfmt", s.take (i + 1) ++ s.drop (i + 1))
      else sniffFormatAux fuel (s.drop (i + 1))
    | none =>
      if trimSpace s ≠ [] then
        if startsWithStr (trimSpace s) (gs "\x7b") then (gs "json", s)
        else (gs "logfmt", s)
      else (gs "json", [])

/-- Model of sniffFormat on the whole byte stream.  The fuel bound
input length + 1 always suffices: every loop iteration consumes a
newline-terminated line. -/
def sniffFormat (s : GoStr) : GoStr × GoStr := sniffFormatAux (s.length + 1) s

/-- Loop of `firstContentSuffix`, fuelled the same way. -/
def firstContentAux : Nat → GoStr → GoStr
  | 0, _ => []
  | fuel + 1, s =>
    match indexByte s '\n' with
    | some i =>
      if trimSpace (s.take (i + 1)) ≠ [] then s
      else firstContentAux fuel (s.drop (i + 1))
    | none => if trimSpace s ≠ [] then s else []

/-- Suffix of the input starting at its first non-blank line, empty when
every line is blank.  This names what sniffFormat actually hands back,
stated independently of the sniffing loop. -/
def firstContentSuffix (s : GoStr) : GoStr := firstContentAux (s.length + 1) s

/-- Days from the Unix epoch of a proleptic-Gregorian civil date
(Howard Hinnant's algorithm, as used by Go's time package internally). -/
def daysFromCivil (y : Int) (m d : Nat) : Int :=
  let yy : Int := if m ≤ 2 then y - 1 else y
  let era : Int := Int.fdiv yy 400
  let yoe : Int := yy - era * 400
  let mp : Int := if 2 < m then (m : Int) - 3 else (m : Int) + 9
  let doy : Int := Int.fdiv (153 * mp + 2) 5 + (d : Int) - 1
  let doe : Int := yoe * 365 + Int.fdiv yoe 4 - Int.fdiv yoe 100 + doy
  era * 146097 + doe - 719468

/-- Go's zero time.Time (January 1, year 1, 00:00:00 UTC) as epoch
seconds. -/
def goZeroTime : Int := daysFromCivil 1 1 1 * 86400

/-- Gregorian leap-year test. -/
def isLeapYear (y : Nat) : Bool := y % 4 = 0 && (y % 100 ≠ 0 || y % 400 = 0)

/-- Day count of a month. -/
def daysInMonth (y m : Nat) : Nat :=
  if m = 2 then (if isLeapYear y then 29 else 28)
  else if m = 4 ∨ m = 6 ∨ m = 9 ∨ m = 11 then 30
  else 31

/-- Numeric value of a decimal digit character. -/
def charDigit (c : Char) : Option Nat :=
  if '0' ≤ c ∧ c ≤ '9' then some (c.toNat - '0'.toNat) else none

/-- Fields of a parsed RFC 3339 timestamp. -/
structure RFC3339Parts where
  year : Nat
  month : Nat
  day : Nat
  hour : Nat
  minute : Nat
  second : Nat
  offMinutes : Int
deriving DecidableEq, Repr

/-- Two decimal digits. -/
def digits2 (a b : Char) : Option Nat :=
  match charDigit a, charDigit b with
  | some x, some y => some (x * 10 + y)
  | _, _ => none

/-- Time-zone suffix of an RFC 3339 string: Z or a signed hh:mm offset,
consuming the whole remainder. -/
def rfc3339Zone (s : GoStr) : Option Int :=
  match s with
  | ['Z'] => some 0
  | sgn :: z1 :: z2 :: ':' :: z3 :: z4 :: [] =>
    if sgn = '+' ∨ sgn = '-' then
      match digits2 z1 z2, digits2 z3 z4 with
      | some zh, some zm =>
        if zh ≤ 23 ∧ zm ≤ 59 then
          some (if sgn = '-' then -((zh : Int) * 60 + zm) else (zh : Int) * 60 + zm)
        else none
      | _, _ => none
    else none
  | _ => none

/-- Model of time.Parse with the time.RFC3339 layout: a strict
"YYYY-MM-DDTHH:MM:SS" prefix, an optional fractional-second field
(accepted by Go when parsing even though the layout lacks one, and
ignored here since sub-second resolution is elided), and a Z or
signed-offset zone, with calendar range checks. -/
def rfc3339Parse (s : GoStr) : Option RFC3339Parts :=
  match s with
  | y1 :: y2 :: y3 :: y4 :: '-' :: m1 :: m2 :: '-' :: d1 :: d2 :: 'T' ::
      h1 :: h2 :: ':' :: n1 :: n2 :: ':' :: s1 :: s2 :: rest =>
    match digits2 y1 y2, digits2 y3 y4, digits2 m1 m2, digits2 d1 d2,
        digits2 h1 h2, digits2 n1 n2, digits2 s1 s2 with
    | some yh, some yl, some mo, some dy, some hh, some mi, some ss =>
      let yr := yh * 100 + yl
      if 1 ≤ mo ∧ mo ≤ 12 ∧ 1 ≤ dy ∧ dy ≤ daysInMonth yr mo ∧
          hh ≤ 23 ∧ mi ≤ 59 ∧ ss ≤ 59 then
        let fr := if startsWithStr rest (gs ".") then (rest.drop 1).takeWhile Char.isDigit else []
        if startsWithStr rest (gs ".") ∧ fr = [] then none
        else
          let zone := if startsWithStr rest (gs ".") then (rest.drop 1).drop fr.length else rest
          match rfc3339Zone zone with
          | some off => some ⟨yr, mo, dy, hh, mi, ss, off⟩
          | none => none
      else none
    | _, _, _, _, _, _, _ => none
  | _ => none

/-- Instant of a parsed RFC 3339 timestamp as epoch seconds. -/
def partsEpoch (p : RFC3339Parts) : Int :=
  daysFromCivil (p.year : Int) p.month p.day * 86400 +
    (p.hour : Int) * 3600 + (p.minute : Int) * 60 + (p.second : Int) - p.offMinutes * 60

/-- Model of scanning a leading float with fmt.Sscanf(s, "%f", &f):
skip leading white space, then an optional sign and a decimal mantissa
with optional fraction and exponent; fails when no digits are present. -/
def goScanFloat (s : GoStr) : Option GoFloat :=
  let t := s.dropWhile goIsSpace
  let neg := startsWithStr t (gs "-")
  let t1 := if neg ∨ startsWithStr t (gs "+") then t.drop 1 else t
  let ds := t1.takeWhile Char.isDigit
  let t2 := t1.drop ds.length
  let fds := if startsWithStr t2 (gs ".") then (t2.drop 1).takeWhile Char.isDigit else []
  let t3 := if startsWithStr t2 (gs ".") then (t2.drop 1).drop fds.length else t2
  if ds = [] ∧ fds = [] then none
  else
    let nx := (t3.drop 1).headD ' '
    let hasExp := (startsWithStr t3 (gs "e") || startsWithStr t3 (gs "E")) &&
      (nx == '+' || nx == '-' || nx.isDigit)
    let t4 := if hasExp then t3.drop 1 else t3
    let expNeg := hasExp && startsWithStr t4 (gs "-")
    let t5 := if hasExp && (startsWithStr t4 (gs "-") || startsWithStr t4 (gs "+")) then t4.drop 1 else t4
    let eds := if hasExp then t5.takeWhile Char.isDigit else []
    if hasExp ∧ eds = [] then none
    else
      let mantNum : Nat := digitsToNat ds * 10 ^ fds.length + digitsToNat fds
      let scaledNum : Nat := if expNeg then mantNum else mantNum * 10 ^ digitsToNat eds
      let scaledDen : Nat := if expNeg then 10 ^ fds.length * 10 ^ digitsToNat eds
        else 10 ^ fds.length
      some ⟨if neg then -(scaledNum : Int) else (scaledNum : Int), scaledDen⟩

/-- Canonical timestamp field names probed in order. -/
def tsKeys : List GoStr := [gs "time", gs "ts", gs "timestamp"]

/-- Key-probing loop of parseTimestampForSort: a Unix float strictly
above 1e9 wins (int64 truncation), otherwise an RFC 3339 reading of the
same string, otherwise the next key; exhaustion yields the zero time. -/
def parseTimestampAux (e : Entry) : List GoStr → Int
  | [] => goZeroTime
  | k :: ks =>
    match lookupE e k with
    | none => parseTimestampAux e ks
    | some v =>
      let s := sprintfV v
      let unixHit : Option Int :=
        match goScanFloat s with
        | some f => if f.gtInt 1000000000 then some f.floorI else none
        | none => none
      match unixHit with
      | some t => t
      | none =>
        match rfc3339Parse s with
        | some p => partsEpoch p
        | none => parseTimestampAux e ks

/-- Model of parseTimestampForSort. -/
def parseTimestampForSort (e : Entry) : Int := parseTimestampAux e tsKeys

/-- Compiled field filter (filter.FieldFilter).  The compiled regular
expression of the ~ operator is determined by Value, so it is not
duplicated here; its matching behaviour enters `FieldFilter.MatchE` as
an explicit parameter. -/
structure FieldFilter where
  Field : GoStr
  Operator : GoStr
  Value : GoStr
deriving DecidableEq, Repr

/-- Operator list of NewFieldFilter, in its fixed priority order. -/
def operatorsList : List GoStr :=
  [gs "!=", gs "~", gs ">=", gs "<=", gs "=", gs ">", gs "<"]

/-- Loop of NewFieldFilter over the operator list; regexp.Compile
success for the ~ operator enters as the parameter rcompile. -/
def newFieldFilterAux (rcompile : GoStr → Bool) :
    List GoStr → GoStr → Except GoStr FieldFilter
  | [], expression => .error (gs "invalid filter expression: " ++ expression)
  | op :: ops, expression =>
    match indexSub expression op with
    | none => newFieldFilterAux rcompile ops expression
    | some idx =>
      let f : FieldFilter :=
        ⟨expression.take idx, op, expression.drop (idx + op.length)⟩
      if op = gs "~" then
        if rcompile f.Value then .ok f else .error (gs "invalid regex in filter")
      else .ok f

/-- Model of NewFieldFilter. -/
def NewFieldFilter (rcompile : GoStr → Bool) (expression : GoStr) :
    Except GoStr FieldFilter :=
  newFieldFilterAux rcompile operatorsList expression

/-- Specification-side split: the first operator in priority order that
occurs anywhere in the expression, with the field before its earliest
occurrence and the literal value after it. -/
def fieldFilterSpecSplit (expression : GoStr) : Option FieldFilter :=
  match operatorsList.find? (fun op => (indexSub expression op).isSome) with
  | none => none
  | some op =>
    match indexSub expression op with
    | some idx => some ⟨expression.take idx, op, expression.drop (idx + op.length)⟩
    | none => none

/-- Model of FieldFilter.Match in state-passing form: the returned
entry is the map as the Go code leaves it.  Regular-expression matching
for the ~ operator enters as the parameter rmatch. -/
def FieldFilter.MatchE (rmatch : GoStr → GoStr → Bool) (f : FieldFilter)
    (entry : Entry) : Bool × Entry :=
  match lookupE entry f.Field with
  | none => (false, entry)
  | some value =>
    let s := sprintfV value
    let b : Bool :=
      if f.Operator = gs "=" then s = f.Value
      else if f.Operator = gs "!=" then !(decide (s = f.Value))
      else if f.Operator = gs ">" then goStrLt f.Value s
      else if f.Operator = gs "<" then goStrLt s f.Value
      else if f.Operator = gs ">=" then goStrLe f.Value s
      else if f.Operator = gs "<=" then goStrLe s f.Value
      else if f.Operator = gs "~" then rmatch f.Value s
      else false
    (b, entry)

/-- Model of CompositeFilter.Match over its child filters (the CLI only
ever composes FieldFilters), in the same state-passing form. -/
def compositeMatch (rmatch : GoStr → GoStr → Bool) :
    List FieldFilter → Entry → Bool × Entry
  | [], entry => (true, entry)
  | f :: fs, entry =>
    let r := f.MatchE rmatch entry
    if r.1 then compositeMatch rmatch fs r.2 else (false, r.2)

/-- ANSI escape constants of the formatter package. -/
def colorReset : GoStr := gs "\x1b[0m"

/-- Red escape. -/
def colorRed : GoStr := gs "\x1b[31m"

/-- Green escape. -/
def colorGreen : GoStr := gs "\x1b[32m"

/-- Yellow escape. -/
def colorYellow : GoStr := gs "\x1b[33m"

/-- Gray escape. -/
def colorGray : GoStr := gs "\x1b[90m"

/-- Bold escape. -/
def colorBold : GoStr := gs "\x1b[1m"

/-- ASCII upper-casing, the fragment of strings.ToUpper exercised by
log level names. -/
def toUpperStr (s : GoStr) : GoStr :=
  s.map (fun c => if 'a' ≤ c ∧ c ≤ 'z' then Char.ofNat (c.toNat - 32) else c)

/-- ASCII lower-casing, the fragment of strings.ToLower exercised by
log level names. -/
def toLowerStr (s : GoStr) : GoStr :=
  s.map (fun c => if 'A' ≤ c ∧ c ≤ 'Z' then Char.ofNat (c.toNat + 32) else c)

/-- TextFormatter configuration. -/
structure TextFormatter where
  Color : Bool
  Fields : List GoStr
deriving DecidableEq, Repr

/-- Model of extractString: string form of the first present key. -/
def extractString (entry : Entry) : List GoStr → GoStr
  | [] => []
  | k :: ks =>
    match lookupE entry k with
    | some v => sprintfV v
    | none => extractString entry ks

/-- Model of colorizeLevel, including the %-5s left-justified padding
of the colourless branch. -/
def colorizeLevel (f : TextFormatter) (level : GoStr) : GoStr :=
  if !f.Color then
    let up := toUpperStr level
    gs "[" ++ up ++ List.replicate (5 - up.length) ' ' ++ gs "]"
  else
    let lv := toLowerStr level
    if lv = gs "error" ∨ lv = gs "err" ∨ lv = gs "fatal" ∨ lv = gs "crit" then
      colorRed ++ colorBold ++ gs "[ERROR]" ++ colorReset
    else if lv = gs "warn" ∨ lv = gs "warning" then
      colorYellow ++ colorBold ++ gs "[WARN ]" ++ colorReset
    else if lv = gs "info" ∨ lv = gs "information" then
      colorGreen ++ colorBold ++ gs "[INFO ]" ++ colorReset
    else colorGray ++ gs "[" ++ toUpperStr level ++ gs "]" ++ colorReset

/-- Two-digit decimal rendering for clock fields. -/
def twoDig (n : Nat) : GoStr := if n < 10 then '0' :: natDigits n else natDigits n

/-- Rendering of time.Format("15:04:05") for a UTC instant in epoch
seconds. -/
def hmsOfEpoch (t : Int) : GoStr :=
  let sod := (Int.fmod t 86400).toNat
  twoDig (sod / 3600) ++ gs ":" ++ twoDig (sod % 3600 / 60) ++ gs ":" ++ twoDig (sod % 60)

/-- Model of formatTimestamp: the empty value renders as a gray blank
placeholder regardless of any colour setting; a scanned float above 1e9
renders as the UTC clock of that Unix instant; an RFC 3339 value
renders its written clock; anything else is truncated to 15
characters. -/
def formatTimestamp (value : GoStr) : GoStr :=
  if value = [] then colorGray ++ gs "               " ++ colorReset
  else
    let unixHit : Bool :=
      match goScanFloat value with
      | some f => f.gtInt 1000000000
      | none => false
    if unixHit then
      match goScanFloat value with
      | some f => hmsOfEpoch f.floorI
      | none => hmsOfEpoch 0
    else
      match rfc3339Parse value with
      | some p => twoDig p.hour ++ gs ":" ++ twoDig p.minute ++ gs ":" ++ twoDig p.second
      | none => if 15 < value.length then value.take 15 else value

/-- Canonical field names rendered in fixed positions by the text
formatter. -/
def canonicalKeys : List GoStr :=
  [gs "time", gs "ts", gs "timestamp", gs "level", gs "lvl", gs "severity",
   gs "message", gs "msg", gs "text"]

/-- Model of TextFormatter.Format in state-passing form; the first
component is the byte sequence written to the sink. -/
def TextFormatter.Format (f : TextFormatter) (entry : Entry) : GoStr × Entry :=
  let timestamp := extractString entry [gs "time", gs "ts", gs "timestamp"]
  let level := extractString entry [gs "level", gs "lvl", gs "severity"]
  let message := extractString entry [gs "message", gs "msg", gs "text"]
  let levelStr := colorizeLevel f level
  let timeStr := formatTimestamp timestamp
  let extras : List GoStr :=
    if f.Fields ≠ [] then
      f.Fields.filterMap (fun field =>
        match lookupE entry field with
        | some v => some (field ++ gs "=" ++ sprintfV v)
        | none => none)
    else
      (sortStrings ((entry.map Prod.fst).filter (fun k => decide (k ∉ canonicalKeys)))).map
        (fun k => k ++ gs "=" ++
          (match lookupE entry k with | some v => sprintfV v | none => []))
  let extaStr : GoStr :=
    if extras ≠ [] then
      if f.Color then gs " " ++ colorGray ++ List.intercalate (gs " ") extras ++ colorReset
      else gs " " ++ List.intercalate (gs " ") extras
    else []
  (timeStr ++ gs " " ++ levelStr ++ gs " " ++ message ++ extaStr ++ gs "\n", entry)

/-- Hexadecimal digit character of a value below 16. -/
def hexDigit (n : Nat) : Char :=
  if n < 10 then Char.ofNat ('0'.toNat + n) else Char.ofNat ('a'.toNat + (n - 10))

/-- Escaping of one character in an encoding/json string literal,
including the default HTML-safe escaping of angle brackets and
ampersands. -/
def jsonEscapeChar (c : Char) : GoStr :=
  if c = '"' then gs "\\\""
  else if c = '\\' then gs "\\\\"
  else if c = '\n' then gs "\\n"
  else if c = '\r' then gs "\\r"
  else if c = '\t' then gs "\\t"
  else if c = '<' then gs "\\u003c"
  else if c = '>' then gs "\\u003e"
  else if c = '&' then gs "\\u0026"
  else if c.toNat < 32 then gs "\\u00" ++ [hexDigit (c.toNat / 16), hexDigit (c.toNat % 16)]
  else [c]

/-- Escaped body of a JSON string literal. -/
def jsonEscape (s : GoStr) : GoStr := s.foldr (fun c acc => jsonEscapeChar c ++ acc) []

/-- Quoted and escaped JSON string literal. -/
def jsonQuote (s : GoStr) : GoStr := gs "\"" ++ jsonEscape s ++ gs "\""

mutual
/-- Compact json.Marshal rendering of a value; map keys are sorted, as
encoding/json does for Go maps. -/
def marshalValue : GoVal → GoStr
  | .str s => jsonQuote s
  | .num q => goFormatFloat q
  | .bool b => if b then gs "true" else gs "false"
  | .null => gs "null"
  | .obj fs =>
    let rendered := sortS (fun a b => goStrLt a.1 b.1) (marshalFields fs)
    gs "\x7b" ++
      List.intercalate (gs ",") (rendered.map (fun p => jsonQuote p.1 ++ gs ":" ++ p.2)) ++
      gs "\x7d"
  | .arr es =>
    gs "[" ++ List.intercalate (gs ",") (marshalElems es) ++ gs "]"

/-- Compact renderings of an object's members. -/
def marshalFields : GoFields → List (GoStr × GoStr)
  | .nil => []
  | .cons k v rest => (k, marshalValue v) :: marshalFields rest

/-- Compact renderings of an array's elements. -/
def marshalElems : GoElems → List GoStr
  | .nil => []
  | .cons v rest => marshalValue v :: marshalElems rest
end

/-- Indentation prefix of json.MarshalIndent with a two-space unit. -/
def indentOf (d : Nat) : GoStr := List.replicate (2 * d) ' '

mutual
/-- json.MarshalIndent rendering of a value at nesting depth d. -/
def marshalValueIndent : GoVal → Nat → GoStr
  | .str s, _ => jsonQuote s
  | .num q, _ => goFormatFloat q
  | .bool b, _ => if b then gs "true" else gs "false"
  | .null, _ => gs "null"
  | .obj fs, d =>
    let rendered := sortS (fun a b => goStrLt a.1 b.1) (marshalFieldsIndent fs (d + 1))
    if rendered = [] then gs "\x7b\x7d"
    else
      gs "\x7b\n" ++
        List.intercalate (gs ",\n")
          (rendered.map (fun p => indentOf (d + 1) ++ jsonQuote p.1 ++ gs ": " ++ p.2)) ++
        gs "\n" ++ indentOf d ++ gs "\x7d"
  | .arr es, d =>
    let rendered := marshalElemsIndent es (d + 1)
    if rendered = [] then gs "[]"
    else
      gs "[\n" ++
        List.intercalate (gs ",\n") (rendered.map (fun e => indentOf (d + 1) ++ e)) ++
        gs "\n" ++ indentOf d ++ gs "]"

/-- Indented renderings of an object's members. -/
def marshalFieldsIndent : GoFields → Nat → List (GoStr × GoStr)
  | .nil, _ => []
  | .cons k v rest, d => (k, marshalValueIndent v d) :: marshalFieldsIndent rest d

/-- Indented renderings of an array's elements. -/
def marshalElemsIndent : GoElems → Nat → List GoStr
  | .nil, _ => []
  | .cons v rest, d => marshalValueIndent v d :: marshalElemsIndent rest d
end

/-- Compact marshalling of a top-level LogEntry map. -/
def marshalEntry (e : Entry) : GoStr :=
  let rendered := sortS (fun a b => goStrLt a.1 b.1)
    (e.map (fun p => (p.1, marshalValue p.2)))
  gs "\x7b" ++
    List.intercalate (gs ",") (rendered.map (fun p => jsonQuote p.1 ++ gs ":" ++ p.2)) ++
    gs "\x7d"

/-- Indented marshalling of a top-level LogEntry map. -/
def marshalEntryIndent (e : Entry) : GoStr :=
  let rendered := sortS (fun a b => goStrLt a.1 b.1)
    (e.map (fun p => (p.1, marshalValueIndent p.2 1)))
  if rendered = [] then gs "\x7b\x7d"
  else
    gs "\x7b\n" ++
      List.intercalate (gs ",\n")
        (rendered.map (fun p => indentOf 1 ++ jsonQuote p.1 ++ gs ": " ++ p.2)) ++
      gs "\n\x7d"

/-- JSONFormatter configuration. -/
structure JSONFormatter where
  Pretty : Bool
deriving DecidableEq, Repr

/-- Model of JSONFormatter.Format in state-passing form: the marshalled
entry followed by a newline. -/
def JSONFormatter.Format (f : JSONFormatter) (entry : Entry) : GoStr × Entry :=
  ((if f.Pretty then marshalEntryIndent entry else marshalEntry entry) ++ gs "\n", entry)

/-- Model of strings.ReplaceAll(v, quote, backslash-quote). -/
def escapeQuotes (v : GoStr) : GoStr :=
  v.foldr (fun c acc => (if c = '"' then gs "\\\"" else [c]) ++ acc) []

/-- Model of LogfmtFormatter.Format in state-passing form: key=value
pairs sorted by key, values containing a space, tab or double quote
wrapped in quotes with inner quotes escaped, space-joined with a
trailing newline. -/
def LogfmtFormatter.Format (entry : Entry) : GoStr × Entry :=
  let keys := sortStrings (entry.map Prod.fst)
  let parts := keys.map (fun k =>
    let v := match lookupE entry k with | some w => sprintfV w | none => []
    let vq := if v.any (fun c => c = ' ' || c = '\t' || c = '"')
      then gs "\"" ++ escapeQuotes v ++ gs "\"" else v
    k ++ gs "=" ++ vq)
  (List.intercalate (gs " ") parts ++ gs "\n", entry)

/-- Source tagging in loadEntries: entry["_source"] = source. -/
def tagSource (entry : Entry) (source : GoStr) : Entry :=
  insertE entry (gs "_source") (.str source)

/-- A loaded entry paired with its sort timestamp (mergedEntry). -/
structure MergedEntry where
  entry : Entry
  t : Int
deriving DecidableEq, Repr

/-- Model of the loadEntries tagging pass over the entries one parser
produced, in parse order. -/
def loadEntriesModel (entries : List Entry) (source : GoStr) : List MergedEntry :=
  entries.map (fun e =>
    let tagged := tagSource e source
    ⟨tagged, parseTimestampForSort tagged⟩)

/-- Model of the merge-mode sort: sort.SliceStable by t.Before(t). -/
def sortMerged (all : List MergedEntry) : List MergedEntry :=
  sortS (fun a b => a.t < b.t) all

/-- Label used by collectStats for entries lacking the field. -/
def noneLabel : GoStr := gs "(none)"

/-- String key tallied by collectStats for one entry. -/
def statKey (field : GoStr) (e : Entry) : GoStr :=
  match lookupE e field with
  | some v => sprintfV v
  | none => noneLabel

/-- Increment of counts[key] for a Go counting map, modelled on an
association list that keeps first-seen key order. -/
def bump : List (GoStr × Nat) → GoStr → List (GoStr × Nat)
  | [], key => [(key, 1)]
  | (k, n) :: rest, key =>
    if k = key then (k, n + 1) :: rest else (k, n) :: bump rest key

/-- Comparison of the sort.Slice call in collectStats: count
descending, then value ascending. -/
def statLess (a b : GoStr × Nat) : Bool :=
  if a.2 ≠ b.2 then b.2 < a.2 else goStrLt a.1 b.1

/-- Model of collectStats: tally the string form of the field over
matching entries, entries lacking the field under the (none) label,
and sort by count descending with ties by value ascending.  The
comparison is a strict total order on rows with distinct values, so the
sorted result is independent of Go's randomised map iteration order. -/
def collectStats (entries : List Entry) (matchF : Entry → Bool) (field : GoStr) :
    List (GoStr × Nat) :=
  let counts := entries.foldl
    (fun c e => if matchF e then bump c (statKey field e) else c) []
  sortS statLess counts

instance {ε α : Type} [DecidableEq ε] [DecidableEq α] : DecidableEq (Except ε α) := fun a b =>
  match a, b with
  | .error e, .error f =>
    if h : e = f then .isTrue (by rw [h]) else .isFalse (fun hh => by cases hh; exact h rfl)
  | .ok x, .ok y =>
    if h : x = y then .isTrue (by rw [h]) else .isFalse (fun hh => by cases hh; exact h rfl)
  | .error _, .ok _ => .isFalse (fun hh => by cases hh)
  | .ok _, .error _ => .isFalse (fun hh => by cases hh)

theorem lookupE_insertE_self (e : Entry) (k : GoStr) (v : GoVal) :
    lookupE (insertE e k v) k = some v := by
  induction e with
  | nil => simp [insertE, lookupE]
  | cons p rest ih =>
    obtain ⟨pk, pv⟩ := p
    by_cases h : pk = k
    · simp [insertE, lookupE, h]
    · simp [insertE, lookupE, h, ih]

theorem lookupE_insertE_ne (e : Entry) (k : GoStr) (v : GoVal) (key : GoStr)
    (hne : key ≠ k) : lookupE (insertE e k v) key = lookupE e key := by
  induction e with
  | nil => simp [insertE, lookupE, Ne.symm hne]
  | cons p rest ih =>
    obtain ⟨pk, pv⟩ := p
    by_cases h : pk = k
    · subst h
      simp [insertE, lookupE, Ne.symm hne]
    · by_cases h2 : pk = key
      · simp [insertE, lookupE, h, h2, hne]
      · simp [insertE, lookupE, h, h2, ih]

theorem newFieldFilterAux_characterization (rc : GoStr → Bool) (ops : List GoStr)
    (expr : GoStr) :
    newFieldFilterAux rc ops expr =
      match ops.find? (fun op => (indexSub expr op).isSome) with
      | none => .error (gs "invalid filter expression: " ++ expr)
      | some op =>
        match indexSub expr op with
        | none => .error (gs "invalid filter expression: " ++ expr)
        | some idx =>
          if op = gs "~" then
            (if rc (expr.drop (idx + op.length)) then
              .ok ⟨expr.take idx, op, expr.drop (idx + op.length)⟩
            else .error (gs "invalid regex in filter"))
          else .ok ⟨expr.take idx, op, expr.drop (idx + op.length)⟩ := by
  induction ops with
  | nil => simp [newFieldFilterAux, List.find?]
  | cons op ops ih =>
    cases hidx : indexSub expr op with
    | none =>
      simp only [List.find?_cons, hidx, Option.isSome_none]
      simpa [newFieldFilterAux, hidx] using ih
    | some idx =>
      simp only [List.find?_cons, hidx, Option.isSome_some]
      simp [newFieldFilterAux, hidx]

/-- C4: filter-expression compilation tries the operators in the fixed
priority order !=, ~, >=, <=, =, >, < and splits at the first operator
found by that priority (the split being at that operator's earliest
occurrence), so "level!=error" compiles to operator != with field level
and value error, "count>=10" compiles to operator >=, and an expression
containing no operator is a compile-time error. -/
theorem newFieldFilter_priority_split :
    (∀ (rc : GoStr → Bool) (expr : GoStr) (f : FieldFilter),
        fieldFilterSpecSplit expr = some f → f.Operator ≠ gs "~" →
        NewFieldFilter rc expr = .ok f) ∧
    (∀ (rc : GoStr → Bool) (expr : GoStr) (f : FieldFilter),
        fieldFilterSpecSplit expr = some f → f.Operator = gs "~" →
        NewFieldFilter rc expr =
          (if rc f.Value then .ok f else .error (gs "invalid regex in filter"))) ∧
    (∀ (rc : GoStr → Bool) (expr : GoStr),
        fieldFilterSpecSplit expr = none →
        NewFieldFilter rc expr = .error (gs "invalid filter expression: " ++ expr)) ∧
    (∀ rc : GoStr → Bool,
        NewFieldFilter rc (gs "level!=error") = .ok ⟨gs "level", gs "!=", gs "error"⟩) ∧
    (∀ rc : GoStr → Bool,
        NewFieldFilter rc (gs "count>=10") = .ok ⟨gs "count", gs ">=", gs "10"⟩) := by
  refine ⟨?_, ?_, ?_, fun rc => rfl, fun rc => rfl⟩
  · intro rc expr f hsplit hop
    rw [NewFieldFilter, newFieldFilterAux_characterization]
    unfold fieldFilterSpecSplit at hsplit
    cases hfind : List.find? (fun op => (indexSub expr op).isSome) operatorsList with
    | none => simp [hfind] at hsplit
    | some op =>
      simp only [hfind] at hsplit
      cases hidx : indexSub expr op with
      | none => simp [hidx] at hsplit
      | some idx =>
        simp only [hidx, Option.some.injEq] at hsplit
        subst hsplit
        simp only at hop
        simp only [hfind, hidx]
        rw [if_neg hop]
  · intro rc expr f hsplit hop
    rw [NewFieldFilter, newFieldFilterAux_characterization]
    unfold fieldFilterSpecSplit at hsplit
    cases hfind : List.find? (fun op => (indexSub expr op).isSome) operatorsList with
    | none => simp [hfind] at hsplit
    | some op =>
      simp only [hfind] at hsplit
      cases hidx : indexSub expr op with
      | none => simp [hidx] at hsplit
      | some idx =>
        simp only [hidx, Option.some.injEq] at hsplit
        subst hsplit
        simp only at hop
        simp only [hfind, hidx]
        rw [if_pos hop]
  · intro rc expr hsplit
    rw [NewFieldFilter, newFieldFilterAux_characterization]
    unfold fieldFilterSpecSplit at hsplit
    cases hfind : List.find? (fun op => (indexSub expr op).isSome) operatorsList with
    | none => simp [hfind]
    | some op =>
      simp only [hfind] at hsplit
      cases hidx : indexSub expr op with
      | none => simp [hfind, hidx]
      | some idx => simp [hidx] at hsplit

/-- Witness for C4 at concrete inputs: the expression a~x splits at ~
with both compile outcomes, and noop has no operator and is rejected. -/
theorem newFieldFilter_priority_split_witness :
    NewFieldFilter (fun _ => true) (gs "a~x") = .ok ⟨gs "a", gs "~", gs "x"⟩ ∧
    NewFieldFilter (fun _ => false) (gs "noop") =
      .error (gs "invalid filter expression: " ++ gs "noop") := by
  constructor
  · exact newFieldFilter_priority_split.2.1 (fun _ => true) (gs "a~x")
      ⟨gs "a", gs "~", gs "x"⟩ (by decide) (by decide)
  · exact newFieldFilter_priority_split.2.2.1 (fun _ => false) (gs "noop") (by decide)

/-- C5: for every compiled FieldFilter and every entry that does not
contain the filter's field, Match returns false regardless of operator,
including the not-equal operator, and for any regular-expression
matching behaviour. -/
theorem fieldFilter_match_missing_field_false (rmatch : GoStr → GoStr → Bool)
    (f : FieldFilter) (e : Entry) (h : lookupE e f.Field = none) :
    (f.MatchE rmatch e).1 = false := by
  simp [FieldFilter.MatchE, h]

/-- Witness for C5: a != filter against an entry lacking the field. -/
theorem fieldFilter_match_missing_field_false_witness :
    (FieldFilter.MatchE (fun _ _ => true)
      ⟨gs "level", gs "!=", gs "error"⟩ [(gs "msg", .str (gs "hello"))]).1 = false :=
  fieldFilter_match_missing_field_false (fun _ _ => true)
    ⟨gs "level", gs "!=", gs "error"⟩ [(gs "msg", .str (gs "hello"))] (by decide)

/-- C2 (amended): the token parser's boolean-flag terminal case fires
exactly when the remaining unconsumed portion of the line contains no
equals sign anywhere; the whole trimmed remainder (spaces included)
then becomes a single field mapped to boolean true and scanning
stops. -/
theorem parseLogfmt_boolean_flag_no_equals (fuel : Nat) (remaining : GoStr)
    (entry : Entry) (hne : trimSpace remaining ≠ [])
    (hnoeq : indexByte (trimSpace remaining) '=' = none) :
    parseLogfmtAux (fuel + 1) remaining entry =
      .ok (insertE entry (trimSpace remaining) (.bool true)) := by
  simp [parseLogfmtAux, hne, hnoeq]

/-- Witness for C2 at the concrete line "verbose debug". -/
theorem parseLogfmt_boolean_flag_no_equals_witness :
    parseLogfmtAux 14 (gs "verbose debug") [] = .ok [(gs "verbose debug", .bool true)] :=
  parseLogfmt_boolean_flag_no_equals 13 (gs "verbose debug") [] (by decide) (by decide)

/-- Counterexample for C2 as stated: on the line "flag other=1" the
scan reaches the token "flag", which contains no equals sign, yet the
parser does NOT map the remaining text to boolean true; because the
line still contains an equals sign later, it splits there into field
"flag other" and value "1". -/
theorem parseLogfmt_bare_token_late_equals_counterexample :
    parseLogfmt (gs "flag other=1") = .ok [(gs "flag other", .str (gs "1"))] ∧
    parseLogfmt (gs "flag other=1") ≠ .ok [(gs "flag other=1", .bool true)] := by
  constructor
  · decide
  · decide

/-- C9: evaluating any FieldFilter or CompositeFilter and rendering
with any of the three formatters leaves the entry exactly as received,
and the merge-mode tagging pass is precisely the insertion of the
_source field: it sets _source to the source label and leaves every
other field unchanged. -/
theorem filters_formatters_preserve_entry :
    (∀ (rm : GoStr → GoStr → Bool) (f : FieldFilter) (e : Entry),
        (f.MatchE rm e).2 = e) ∧
    (∀ (rm : GoStr → GoStr → Bool) (fs : List FieldFilter) (e : Entry),
        (compositeMatch rm fs e).2 = e) ∧
    (∀ (tf : TextFormatter) (e : Entry), (tf.Format e).2 = e) ∧
    (∀ (jf : JSONFormatter) (e : Entry), (jf.Format e).2 = e) ∧
    (∀ e : Entry, (LogfmtFormatter.Format e).2 = e) ∧
    (∀ (e : Entry) (src : GoStr),
        tagSource e src = insertE e (gs "_source") (.str src)) ∧
    (∀ (e : Entry) (src : GoStr),
        lookupE (tagSource e src) (gs "_source") = some (.str src)) ∧
    (∀ (e : Entry) (src : GoStr) (k : GoStr), k ≠ gs "_source" →
        lookupE (tagSource e src) k = lookupE e k) := by
  have hmatch : ∀ (rm : GoStr → GoStr → Bool) (f : FieldFilter) (e : Entry),
      (f.MatchE rm e).2 = e := by
    intro rm f e
    cases h : lookupE e f.Field <;> simp [FieldFilter.MatchE, h]
  refine ⟨hmatch, ?_, fun tf e => rfl, fun jf e => rfl, fun e => rfl,
    fun e src => rfl, ?_, ?_⟩
  · intro rm fs
    induction fs with
    | nil => intro e; rfl
    | cons f fs ih =>
      intro e
      by_cases hb : (f.MatchE rm e).1
      · simp [compositeMatch, hb, hmatch rm f e, ih e]
      · simp [compositeMatch, hb, hmatch rm f e]
  · intro e src
    exact lookupE_insertE_self e (gs "_source") (.str src)
  · intro e src k hk
    exact lookupE_insertE_ne e (gs "_source") (.str src) k hk

/-- Witness for C9: tagging a concrete entry sets _source and leaves
the msg field alone. -/
theorem filters_formatters_preserve_entry_witness :
    lookupE (tagSource [(gs "msg", .str (gs "hi"))] (gs "a.log")) (gs "msg") =
      lookupE [(gs "msg", .str (gs "hi"))] (gs "msg") :=
  filters_formatters_preserve_entry.2.2.2.2.2.2.2
    [(gs "msg", .str (gs "hi"))] (gs "a.log") (gs "msg") (by decide)

/-- C10: whenever an entry lacks all three timestamp field names, the
text renderer's output begins with the gray blank-timestamp
placeholder, ANSI escape codes included, for any colour setting and any
field restriction. -/
theorem textFormatter_blank_timestamp_gray (c : Bool) (flds : List GoStr)
    (e : Entry) (h1 : lookupE e (gs "time") = none)
    (h2 : lookupE e (gs "ts") = none) (h3 : lookupE e (gs "timestamp") = none) :
    ∃ rest : GoStr, (TextFormatter.Format ⟨c, flds⟩ e).1 =
      (colorGray ++ gs "               " ++ colorReset) ++ rest := by
  have hext : extractString e [gs "time", gs "ts", gs "timestamp"] = [] := by
    simp [extractString, h1, h2, h3]
  have hdec : ∃ tail : GoStr, (TextFormatter.Format ⟨c, flds⟩ e).1 =
      formatTimestamp (extractString e [gs "time", gs "ts", gs "timestamp"]) ++ tail := by
    simp only [TextFormatter.Format, List.append_assoc]
    exact ⟨_, rfl⟩
  obtain ⟨tail, htail⟩ := hdec
  refine ⟨tail, ?_⟩
  rw [htail, hext]
  rfl

/-- Witness for C10: the empty entry with colour disabled. -/
theorem textFormatter_blank_timestamp_gray_witness :
    ∃ rest : GoStr, (TextFormatter.Format ⟨false, []⟩ []).1 =
      (colorGray ++ gs "               " ++ colorReset) ++ rest :=
  textFormatter_blank_timestamp_gray false [] [] rfl rfl rfl

theorem logfmtParseLines_characterization (lines : List GoStr) (n : Nat) :
    (logfmtParseLines lines n).1 = lines.filterMap
      (fun l => if trimSpace l = [] then none else (parseLogfmt (trimSpace l)).toOption) ∧
    (logfmtParseLines lines n).2 = (List.enumFrom (n + 1) lines).filterMap
      (fun p => if trimSpace p.2 = [] then none else
        match parseLogfmt (trimSpace p.2) with
        | .error m => some (p.1, m)
        | .ok _ => none) := by
  induction lines generalizing n with
  | nil => exact ⟨rfl, rfl⟩
  | cons l ls ih =>
    by_cases hb : trimSpace l = []
    · constructor
      · simp [logfmtParseLines, hb, (ih (n + 1)).1]
      · simp [logfmtParseLines, hb, (ih (n + 1)).2]
    · cases hp : parseLogfmt (trimSpace l) with
      | error m =>
        constructor
        · simp [logfmtParseLines, hb, hp, (ih (n + 1)).1, Except.toOption]
        · simp [logfmtParseLines, hb, hp, (ih (n + 1)).2]
      | ok e =>
        constructor
        · simp [logfmtParseLines, hb, hp, (ih (n + 1)).1, Except.toOption]
        · simp [logfmtParseLines, hb, hp, (ih (n + 1)).2]

/-- C8: in the token parser, a quoted value whose scan reaches
end-of-line without a closing double quote not immediately preceded by
a backslash makes the whole line a hard parse error with the message
"unterminated string value"; at line level, such a line produces zero
records and exactly one error that carries its 1-based line number (the
line loop emits the records of the error-free lines and one numbered
error per failing line), as on the concrete line key="unterminated. -/
theorem parseLogfmt_unterminated_quote_error :
    (∀ (fuel : Nat) (remaining : GoStr) (entry : Entry) (eqIdx : Nat),
        trimSpace remaining ≠ [] →
        indexByte (trimSpace remaining) '=' = some eqIdx →
        startsWithStr ((trimSpace remaining).drop (eqIdx + 1)) (gs "\"") = true →
        findCloseQuote ((trimSpace remaining).drop (eqIdx + 1)) = none →
        parseLogfmtAux (fuel + 1) remaining entry =
          .error (gs "unterminated string value")) ∧
    (∀ (lines : List GoStr) (n : Nat),
        (logfmtParseLines lines n).2 = (List.enumFrom (n + 1) lines).filterMap
          (fun p => if trimSpace p.2 = [] then none else
            match parseLogfmt (trimSpace p.2) with
            | .error m => some (p.1, m)
            | .ok _ => none)) ∧
    (∀ (lines : List GoStr) (n : Nat),
        (logfmtParseLines lines n).1 = lines.filterMap
          (fun l => if trimSpace l = [] then none
            else (parseLogfmt (trimSpace l)).toOption)) ∧
    logfmtParseLines [gs "key=\"unterminated"] 0 =
      ([], [(1, gs "unterminated string value")]) := by
  refine ⟨?_, fun lines n => (logfmtParseLines_characterization lines n).2,
    fun lines n => (logfmtParseLines_characterization lines n).1, by decide⟩
  intro fuel remaining entry eqIdx hne heq hq hnc
  simp [parseLogfmtAux, hne, heq, hq, hnc]

/-- Witness for C8 on the line key="unterminated itself. -/
theorem parseLogfmt_unterminated_quote_error_witness :
    parseLogfmtAux 19 (gs "key=\"unterminated") [] =
      .error (gs "unterminated string value") :=
  parseLogfmt_unterminated_quote_error.1 18 (gs "key=\"unterminated") [] 3
    (by decide) (by decide) (by decide) (by decide)

/-- C3 (amended): the structured parser's line loop emits one entry per
non-blank line whose unmarshalling succeeds (a JSON object, or the
literal null which unmarshals into a LogEntry without error and leaves
the map nil) and exactly one error, carrying the line's 1-based number,
per non-blank line whose unmarshalling fails; blank lines are skipped
and parsing always continues with the remaining lines. -/
theorem jsonParseLines_characterization (lines : List GoStr) (n : Nat) :
    (jsonParseLines lines n).1 = lines.filterMap (fun l =>
        if trimSpace l = [] then none else
        match unmarshalEntry (trimSpace l) with
        | .err => none
        | .nilMap => some []
        | .objMap e => some e) ∧
    (jsonParseLines lines n).2 = (List.enumFrom (n + 1) lines).filterMap (fun p =>
        if trimSpace p.2 = [] then none else
        if unmarshalEntry (trimSpace p.2) = .err then some p.1 else none) := by
  induction lines generalizing n with
  | nil => exact ⟨rfl, rfl⟩
  | cons l ls ih =>
    by_cases hb : trimSpace l = []
    · constructor
      · simp [jsonParseLines, hb, (ih (n + 1)).1]
      · simp [jsonParseLines, hb, (ih (n + 1)).2]
    · cases hp : unmarshalEntry (trimSpace l) with
      | err =>
        constructor
        · simp [jsonParseLines, hb, hp, (ih (n + 1)).1]
        · simp [jsonParseLines, hb, hp, (ih (n + 1)).2]
      | nilMap =>
        constructor
        · simp [jsonParseLines, hb, hp, (ih (n + 1)).1]
        · simp [jsonParseLines, hb, hp, (ih (n + 1)).2]
      | objMap e =>
        constructor
        · simp [jsonParseLines, hb, hp, (ih (n + 1)).1]
        · simp [jsonParseLines, hb, hp, (ih (n + 1)).2]

/-- Counterexample for C3 as stated: the lone literal null does NOT
yield an error; json.Unmarshal accepts it (leaving the LogEntry map
nil), so the line emits a record and the error list stays empty. -/
theorem jsonParseLines_null_line_counterexample :
    (jsonParseLines [gs "null"] 0).2 = [] ∧
    (jsonParseLines [gs "null"] 0).1 = [[]] := by
  constructor
  · decide
  · decide

theorem sniffFormatAux_firstContent (fuel : Nat) (s : GoStr) (h : s.length < fuel) :
    (sniffFormatAux fuel s).2 = firstContentAux fuel s := by
  induction fuel generalizing s with
  | zero => omega
  | succ fuel ih =>
    simp only [sniffFormatAux, firstContentAux]
    cases hn : indexByte s '\n' with
    | some i =>
      by_cases hb : trimSpace (s.take (i + 1)) = []
      · simp only [hb, ne_eq, not_true_eq_false, if_false]
        apply ih
        have := indexByte_lt_length hn
        simp only [List.length_drop]
        omega
      · by_cases hs : startsWithStr (trimSpace (s.take (i + 1))) (gs "\x7b") <;>
          simp [hb, hs, List.take_append_drop]
    | none =>
      by_cases hb : trimSpace s = []
      · simp [hb]
      · by_cases hs : startsWithStr (trimSpace s) (gs "\x7b") <;> simp [hb, hs]

/-- C1 (amended): the stream returned by sniffFormat reproduces every
byte of the original stream from its first non-blank line onward;
leading blank or whitespace-only lines consumed while peeking, and a
trailing all-whitespace stream, are discarded rather than prepended
back. -/
theorem sniffFormat_returns_first_content_suffix (s : GoStr) :
    (sniffFormat s).2 = firstContentSuffix s :=
  sniffFormatAux_firstContent (s.length + 1) s (Nat.lt_succ_self _)

/-- Counterexample for C1 as stated: on an input whose first line is
blank, the reconstructed stream is missing that leading newline, so the
original bytes are not reproduced. -/
theorem sniffFormat_drops_leading_blank_line :
    (sniffFormat (gs "\n\x7b\x7d\n")).2 ≠ gs "\n\x7b\x7d\n" ∧
    (sniffFormat (gs "\n\x7b\x7d\n")).2 = gs "\x7b\x7d\n" := by
  constructor
  · decide
  · decide

theorem goStrLt_iff_lt : ∀ a b : GoStr, goStrLt a b = true ↔ a < b := by
  intro a
  induction a with
  | nil =>
    intro b
    cases b with
    | nil =>
      simp only [goStrLt, Bool.false_eq_true, false_iff]
      exact lt_irrefl _
    | cons y ys =>
      simp only [goStrLt, true_iff]
      exact List.nil_lt_cons y ys
  | cons x xs ih =>
    intro b
    cases b with
    | nil =>
      simp only [goStrLt, Bool.false_eq_true, false_iff]
      intro h
      cases h
    | cons y ys =>
      by_cases hxy : x = y
      · subst hxy
        simp only [goStrLt, if_pos rfl, if_true]
        rw [ih ys]
        constructor
        · exact fun h => List.Lex.cons h
        · exact fun h => List.Lex.cons_iff.mp h
      · simp only [goStrLt, if_neg hxy, decide_eq_true_eq]
        constructor
        · exact fun h => List.Lex.rel h
        · intro h
          cases h with
          | cons h2 => exact absurd rfl hxy
          | rel hr => exact hr

theorem goStrLt_eq_false_iff (a b : GoStr) : goStrLt a b = false ↔ ¬a < b := by
  rw [← goStrLt_iff_lt]
  simp

theorem mem_insertS {lt : α → α → Bool} {x y : α} {l : List α}
    (h : y ∈ insertS lt x l) : y = x ∨ y ∈ l := by
  induction l with
  | nil => simpa [insertS] using h
  | cons a as_ ih =>
    simp only [insertS] at h
    by_cases hc : lt a x = true
    · rw [if_pos hc] at h
      rcases List.mem_cons.mp h with h1 | h2
      · exact Or.inr (by simp [h1])
      · rcases ih h2 with h3 | h4
        · exact Or.inl h3
        · exact Or.inr (List.mem_cons_of_mem _ h4)
    · rw [if_neg hc] at h
      rcases List.mem_cons.mp h with h1 | h2
      · exact Or.inl h1
      · exact Or.inr h2

theorem insertS_perm (lt : α → α → Bool) (x : α) (l : List α) :
    (insertS lt x l).Perm (x :: l) := by
  induction l with
  | nil => exact List.Perm.refl _
  | cons a as_ ih =>
    simp only [insertS]
    by_cases hc : lt a x = true
    · rw [if_pos hc]
      exact (ih.cons a).trans (List.Perm.swap x a as_)
    · rw [if_neg hc]

theorem sortS_perm (lt : α → α → Bool) (l : List α) : (sortS lt l).Perm l := by
  induction l with
  | nil => exact List.Perm.refl _
  | cons a as_ ih =>
    exact (insertS_perm lt a (sortS lt as_)).trans (ih.cons a)

theorem pairwise_insertS {lt : α → α → Bool}
    (hasym : ∀ a b, lt a b = true → lt b a = false)
    (hnt : ∀ a b c, lt b a = false → lt c b = false → lt c a = false)
    (x : α) (l : List α) (hl : l.Pairwise (fun a b => lt b a = false)) :
    (insertS lt x l).Pairwise (fun a b => lt b a = false) := by
  induction l with
  | nil => simp [insertS]
  | cons a as_ ih =>
    rcases List.pairwise_cons.mp hl with ⟨ha, htl⟩
    simp only [insertS]
    by_cases hc : lt a x = true
    · rw [if_pos hc]
      refine List.pairwise_cons.mpr ⟨?_, ih htl⟩
      intro y hy
      rcases mem_insertS hy with h1 | h2
      · subst h1
        exact hasym a y hc
      · exact ha y h2
    · rw [if_neg hc]
      have hax : lt a x = false := by
        cases hax2 : lt a x
        · rfl
        · exact absurd hax2 hc
      refine List.pairwise_cons.mpr ⟨?_, hl⟩
      intro y hy
      rcases List.mem_cons.mp hy with h1 | h2
      · subst h1
        exact hax
      · exact hnt x a y hax (ha y h2)

theorem pairwise_sortS {lt : α → α → Bool}
    (hasym : ∀ a b, lt a b = true → lt b a = false)
    (hnt : ∀ a b c, lt b a = false → lt c b = false → lt c a = false)
    (l : List α) : (sortS lt l).Pairwise (fun a b => lt b a = false) := by
  induction l with
  | nil => simp [sortS]
  | cons a as_ ih => exact pairwise_insertS hasym hnt a (sortS lt as_) ih

theorem statLess_eq_false_iff (x y : GoStr × Nat) :
    statLess x y = false ↔ (x.2 < y.2 ∨ (x.2 = y.2 ∧ ¬x.1 < y.1)) := by
  simp only [statLess]
  by_cases hc : x.2 = y.2
  · simp only [hc, ne_eq, not_true_eq_false, if_false, goStrLt_eq_false_iff]
    constructor
    · exact fun h => Or.inr ⟨trivial, h⟩
    · rintro (h | ⟨_, h⟩)
      · omega
      · exact h
  · simp only [ne_eq, hc, not_false_eq_true, if_true, decide_eq_false_iff_not]
    constructor
    · intro h
      exact Or.inl (by omega)
    · rintro (h | ⟨h2, _⟩)
      · omega
      · exact h2.elim

theorem statLess_asymm (a b : GoStr × Nat) :
    statLess a b = true → statLess b a = false := by
  intro h
  rw [statLess_eq_false_iff]
  simp only [statLess] at h
  by_cases hc : a.2 = b.2
  · simp only [hc, ne_eq, not_true_eq_false, if_false] at h
    exact Or.inr ⟨hc.symm, not_lt_of_gt ((goStrLt_iff_lt _ _).mp h)⟩
  · simp only [ne_eq, hc, not_false_eq_true, if_true, decide_eq_true_eq] at h
    exact Or.inl h

theorem statLess_negtrans (a b c : GoStr × Nat) :
    statLess b a = false → statLess c b = false → statLess c a = false := by
  rw [statLess_eq_false_iff, statLess_eq_false_iff, statLess_eq_false_iff]
  rintro (h1 | ⟨h1e, h1s⟩) (h2 | ⟨h2e, h2s⟩)
  · exact Or.inl (by omega)
  · exact Or.inl (by omega)
  · exact Or.inl (by omega)
  · refine Or.inr ⟨by omega, ?_⟩
    intro hlt
    exact absurd (lt_of_lt_of_le (lt_of_lt_of_le hlt (not_lt.mp h1s)) (not_lt.mp h2s))
      (lt_irrefl _)

theorem mtLess_asymm (a b : MergedEntry) :
    decide (a.t < b.t) = true → decide (b.t < a.t) = false := by
  simp only [decide_eq_true_eq, decide_eq_false_iff_not]
  omega

theorem mtLess_negtrans (a b c : MergedEntry) :
    decide (b.t < a.t) = false → decide (c.t < b.t) = false →
    decide (c.t < a.t) = false := by
  simp only [decide_eq_false_iff_not]
  omega

theorem insertS_filter_t (x : MergedEntry) (l : List MergedEntry) (v : Int) :
    (insertS (fun a b => decide (a.t < b.t)) x l).filter (fun y => decide (y.t = v)) =
      if x.t = v then x :: l.filter (fun y => decide (y.t = v))
      else l.filter (fun y => decide (y.t = v)) := by
  induction l with
  | nil => by_cases hx : x.t = v <;> simp [insertS, hx]
  | cons a as_ ih =>
    simp only [insertS]
    by_cases hc : a.t < x.t
    · rw [if_pos (by simpa using hc)]
      by_cases hx : x.t = v
      · have hav : ¬a.t = v := by omega
        simp [List.filter_cons, hav, ih, hx]
      · by_cases hav : a.t = v <;> simp [List.filter_cons, hav, ih, hx]
    · rw [if_neg (by simpa using hc)]
      by_cases hx : x.t = v <;> by_cases hav : a.t = v <;>
        simp [List.filter_cons, hx, hav]

theorem sortS_filter_t (l : List MergedEntry) (v : Int) :
    (sortS (fun a b => decide (a.t < b.t)) l).filter (fun y => decide (y.t = v)) =
      l.filter (fun y => decide (y.t = v)) := by
  induction l with
  | nil => rfl
  | cons a as_ ih =>
    simp only [sortS]
    rw [insertS_filter_t]
    by_cases ha : a.t = v <;> simp [List.filter_cons, ha, ih]

/-- C7 (amended): merge-mode output is the stable ascending sort of the
loaded entries by parsed timestamp: the result is a permutation of the
input, non-decreasing in the t field, and entries with equal timestamps
keep their source-then-parse order; an entry lacking all three canonical
timestamp fields is assigned Go's zero time (January 1 of year 1), so
such entries precede every entry whose parsed timestamp is later than
the zero time, though not an entry whose RFC 3339 timestamp falls in
year 0. -/
theorem mergeSort_order_spec :
    (∀ all : List MergedEntry, (sortMerged all).Pairwise (fun a b => a.t ≤ b.t)) ∧
    (∀ all : List MergedEntry, (sortMerged all).Perm all) ∧
    (∀ (all : List MergedEntry) (v : Int),
        (sortMerged all).filter (fun me => decide (me.t = v)) =
          all.filter (fun me => decide (me.t = v))) ∧
    (∀ e : Entry, lookupE e (gs "time") = none → lookupE e (gs "ts") = none →
        lookupE e (gs "timestamp") = none → parseTimestampForSort e = goZeroTime) := by
  refine ⟨?_, fun all => sortS_perm _ all, fun all v => sortS_filter_t all v, ?_⟩
  · intro all
    have hp := pairwise_sortS mtLess_asymm mtLess_negtrans all
    exact hp.imp (fun h => by simpa using h)
  · intro e h1 h2 h3
    simp [parseTimestampForSort, parseTimestampAux, tsKeys, h1, h2, h3]

/-- Witness for C7: the empty entry lacks all timestamp fields and is
assigned the zero time. -/
theorem mergeSort_order_spec_witness :
    parseTimestampForSort ([] : Entry) = goZeroTime :=
  mergeSort_order_spec.2.2.2 [] rfl rfl rfl

/-- Counterexample for C7 as stated: a record carrying the RFC 3339
timestamp 0000-01-01T00:00:00Z parses to an instant strictly before the
zero time that timestamp-less records receive, so the timestamp-less
record sorts AFTER it: timestamp-less records are neither "the earliest
possible value" nor always first. -/
theorem mergeSort_year_zero_counterexample :
    parseTimestampForSort [(gs "msg", .str (gs "x"))] = goZeroTime ∧
    parseTimestampForSort [(gs "time", .str (gs "0000-01-01T00:00:00Z"))] < goZeroTime ∧
    sortMerged
      [⟨[(gs "msg", .str (gs "x"))], goZeroTime⟩,
       ⟨[(gs "time", .str (gs "0000-01-01T00:00:00Z"))], -62167219200⟩] =
      [⟨[(gs "time", .str (gs "0000-01-01T00:00:00Z"))], -62167219200⟩,
       ⟨[(gs "msg", .str (gs "x"))], goZeroTime⟩] := by
  refine ⟨by decide, by decide, by decide⟩

instance : Nonempty Entry := ⟨[]⟩

/-- Association lookup in the counting map. -/
def lookupN : List (GoStr × Nat) → GoStr → Option Nat
  | [], _ => none
  | (k, n) :: rest, key => if k = key then some n else lookupN rest key

theorem bump_lookupN_self (c : List (GoStr × Nat)) (key : GoStr) :
    lookupN (bump c key) key = some ((lookupN c key).getD 0 + 1) := by
  induction c with
  | nil => simp [bump, lookupN]
  | cons p rest ih =>
    obtain ⟨k, n⟩ := p
    by_cases h : k = key
    · simp [bump, lookupN, h]
    · simp [bump, lookupN, h, ih]

theorem bump_lookupN_ne (c : List (GoStr × Nat)) (key k2 : GoStr) (h : k2 ≠ key) :
    lookupN (bump c key) k2 = lookupN c k2 := by
  induction c with
  | nil => simp [bump, lookupN, Ne.symm h]
  | cons p rest ih =>
    obtain ⟨k, n⟩ := p
    by_cases hk : k = key
    · subst hk
      simp [bump, lookupN, Ne.symm h]
    · by_cases hk2 : k = k2 <;> simp [bump, lookupN, hk, hk2, h, ih]

theorem tally_lookupN (matchF : Entry → Bool) (field : GoStr) :
    ∀ (entries : List Entry) (c : List (GoStr × Nat)) (v : GoStr),
    (lookupN (entries.foldl
        (fun c e => if matchF e then bump c (statKey field e) else c) c) v).getD 0 =
      (lookupN c v).getD 0 +
        entries.countP (fun e => matchF e && decide (statKey field e = v)) := by
  intro entries
  induction entries with
  | nil => intro c v; simp
  | cons e es ih =>
    intro c v
    simp only [List.foldl_cons, List.countP_cons]
    cases hm : matchF e
    · simp [hm, ih]
    · by_cases hk : statKey field e = v
      · subst hk
        simp only [hm, if_true, Bool.true_and, ih, bump_lookupN_self]
        simp
        omega
      · have hne : v ≠ statKey field e := fun hh => hk hh.symm
        simp [hm, ih, bump_lookupN_ne _ _ _ hne, hk]

theorem tally_lookupN_none_iff (matchF : Entry → Bool) (field : GoStr) :
    ∀ (entries : List Entry) (c : List (GoStr × Nat)) (v : GoStr),
    lookupN (entries.foldl
        (fun c e => if matchF e then bump c (statKey field e) else c) c) v = none ↔
      (lookupN c v = none ∧
        entries.countP (fun e => matchF e && decide (statKey field e = v)) = 0) := by
  intro entries
  induction entries with
  | nil => intro c v; simp
  | cons e es ih =>
    intro c v
    simp only [List.foldl_cons, List.countP_cons]
    cases hm : matchF e
    · simp [hm, ih]
    · by_cases hk : statKey field e = v
      · subst hk
        simp only [hm, if_true, Bool.true_and, ih, bump_lookupN_self]
        simp
      · have hne : v ≠ statKey field e := fun hh => hk hh.symm
        simp [hm, ih, bump_lookupN_ne _ _ _ hne, hk]

theorem bump_keys_eq (c : List (GoStr × Nat)) (key : GoStr) :
    (bump c key).map Prod.fst =
      if key ∈ c.map Prod.fst then c.map Prod.fst else c.map Prod.fst ++ [key] := by
  induction c with
  | nil => simp [bump]
  | cons p rest ih =>
    obtain ⟨k, n⟩ := p
    by_cases h : k = key
    · simp [bump, h]
    · have : ¬key = k := fun hh => h hh.symm
      by_cases hmem : key ∈ rest.map Prod.fst <;>
        simp [bump, h, ih, hmem, this]

theorem bump_nodupKeys (c : List (GoStr × Nat)) (key : GoStr)
    (h : (c.map Prod.fst).Nodup) : ((bump c key).map Prod.fst).Nodup := by
  rw [bump_keys_eq]
  by_cases hmem : key ∈ c.map Prod.fst
  · simpa [hmem] using h
  · simp only [hmem, if_false]
    simp [List.nodup_append, h, hmem]

theorem tally_nodupKeys (matchF : Entry → Bool) (field : GoStr) :
    ∀ (entries : List Entry) (c : List (GoStr × Nat)),
    (c.map Prod.fst).Nodup →
    ((entries.foldl
        (fun c e => if matchF e then bump c (statKey field e) else c) c).map
      Prod.fst).Nodup := by
  intro entries
  induction entries with
  | nil => intro c h; simpa using h
  | cons e es ih =>
    intro c h
    simp only [List.foldl_cons]
    cases hm : matchF e
    · simpa [hm] using ih c h
    · simpa [hm] using ih (bump c (statKey field e)) (bump_nodupKeys c _ h)

theorem lookupN_of_mem {c : List (GoStr × Nat)} (hnd : (c.map Prod.fst).Nodup)
    {v : GoStr} {n : Nat} (h : (v, n) ∈ c) : lookupN c v = some n := by
  induction c with
  | nil => cases h
  | cons p rest ih =>
    obtain ⟨k, m⟩ := p
    simp only [List.map_cons, List.nodup_cons] at hnd
    obtain ⟨hk, hnd2⟩ := hnd
    rcases List.mem_cons.mp h with h1 | h2
    · cases h1
      simp [lookupN]
    · by_cases hkv : k = v
      · subst hkv
        exact absurd (List.mem_map_of_mem Prod.fst h2) hk
      · simp [lookupN, hkv, ih hnd2 h2]

theorem mem_of_lookupN {c : List (GoStr × Nat)} {v : GoStr} {n : Nat}
    (h : lookupN c v = some n) : (v, n) ∈ c := by
  induction c with
  | nil => cases h
  | cons p rest ih =>
    obtain ⟨k, m⟩ := p
    by_cases hk : k = v
    · subst hk
      simp [lookupN] at h
      subst h
      exact List.mem_cons_self _ _
    · simp only [lookupN, if_neg hk] at h
      exact List.mem_cons_of_mem _ (ih h)

/-- C6: stats aggregation tallies the canonical string form of the
named field over the filter-matching entries, counts entries lacking
the field under the sentinel label (none), and returns rows sorted by
descending count with ties broken by ascending value: every returned
row's count is exactly the number of matching entries whose key string
equals its value, every value reached by a matching entry appears, and
on level values info,error,info,info,warn,warn the result is exactly
[(info,3),(warn,2),(error,1)]. -/
theorem collectStats_sorted_counts :
    (∀ (entries : List Entry) (matchF : Entry → Bool) (field : GoStr),
        (collectStats entries matchF field).Pairwise
          (fun a b => b.2 < a.2 ∨ (a.2 = b.2 ∧ goStrLe a.1 b.1 = true))) ∧
    (∀ (entries : List Entry) (matchF : Entry → Bool) (field : GoStr)
        (v : GoStr) (n : Nat), (v, n) ∈ collectStats entries matchF field →
        n = entries.countP (fun e => matchF e && decide (statKey field e = v))) ∧
    (∀ (entries : List Entry) (matchF : Entry → Bool) (field : GoStr) (v : GoStr),
        0 < entries.countP (fun e => matchF e && decide (statKey field e = v)) →
        (v, entries.countP (fun e => matchF e && decide (statKey field e = v))) ∈
          collectStats entries matchF field) ∧
    (∀ (e : Entry) (field : GoStr),
        lookupE e field = none → statKey field e = noneLabel) ∧
    collectStats
      [[(gs "level", .str (gs "info"))], [(gs "level", .str (gs "error"))],
       [(gs "level", .str (gs "info"))], [(gs "level", .str (gs "info"))],
       [(gs "level", .str (gs "warn"))], [(gs "level", .str (gs "warn"))]]
      (fun _ => true) (gs "level") =
      [(gs "info", 3), (gs "warn", 2), (gs "error", 1)] := by
  refine ⟨?_, ?_, ?_, ?_, by decide⟩
  · intro entries matchF field
    have hp := pairwise_sortS statLess_asymm statLess_negtrans
      (entries.foldl (fun c e => if matchF e then bump c (statKey field e) else c) [])
    refine hp.imp ?_
    intro a b h
    rcases (statLess_eq_false_iff b a).mp h with h1 | ⟨h2, h3⟩
    · exact Or.inl h1
    · exact Or.inr ⟨h2.symm, by simp [goStrLe, goStrLt_eq_false_iff, h3]⟩
  · intro entries matchF field v n hmem
    have hmem2 : (v, n) ∈ entries.foldl
        (fun c e => if matchF e then bump c (statKey field e) else c) [] :=
      (sortS_perm statLess _).mem_iff.mp hmem
    have hnd := tally_nodupKeys matchF field entries [] (by simp)
    have hl := lookupN_of_mem hnd hmem2
    have hg := tally_lookupN matchF field entries [] v
    rw [hl] at hg
    simpa [lookupN] using hg
  · intro entries matchF field v hpos
    have hnone := tally_lookupN_none_iff matchF field entries [] v
    have hg := tally_lookupN matchF field entries [] v
    cases hl : lookupN (entries.foldl
        (fun c e => if matchF e then bump c (statKey field e) else c) []) v with
    | none =>
      rw [hnone] at hl
      omega
    | some m =>
      rw [hl] at hg
      simp only [Option.getD_some] at hg
      simp only [lookupN, Option.getD_none] at hg
      have := mem_of_lookupN hl
      rw [hg] at this
      exact (sortS_perm statLess _).mem_iff.mpr (by simpa using this)
  · intro e field h
    simp [statKey, h]

/-- Witness for C6: the info row of the concrete example carries count
3, the number of matching entries whose level renders as info. -/
theorem collectStats_sorted_counts_witness :
    (3 : Nat) =
      List.countP (fun e => (fun _ => true) e && decide (statKey (gs "level") e = gs "info"))
        [[(gs "level", .str (gs "info"))], [(gs "level", .str (gs "error"))],
         [(gs "level", .str (gs "info"))], [(gs "level", .str (gs "info"))],
         [(gs "level", .str (gs "warn"))], [(gs "level", .str (gs "warn"))]] :=
  collectStats_sorted_counts.2.1
    [[(gs "level", .str (gs "info"))], [(gs "level", .str (gs "error"))],
     [(gs "level", .str (gs "info"))], [(gs "level", .str (gs "info"))],
     [(gs "level", .str (gs "warn"))], [(gs "level", .str (gs "warn"))]]
    (fun _ => true) (gs "level") (gs "info") 3 (by decide)
